import Mathlib

/-!
# Verification of the fastembed order-preserving batch-embedding pipeline

Shallow embedding of the algorithmic core of the `qdrant-fastembed` repository:
the batcher (`iter_batch`), the numeric post-processing kernels (`normalize`,
`mean_pooling`, `adjust_matryoshka_embedding`), the pipeline-driver path
selection of `FlagEmbedding.embed`, the worker protocol
(`EmbeddingWorker.process`), the result-reordering pool contract, and the
late-interaction `query_embed` dispatch.

Machine floats are embedded as exact rationals (`ℚ`) where the code is purely
arithmetic, and as reals (`ℝ`) where a Euclidean norm (square root) occurs.
Numpy arrays are embedded as `Fin`-indexed functions (numpy arrays are
rectangular) or as lists of rows; per-axis operations are translated pointwise.
-/

namespace Fastembed

/-- Embedding of `iter_batch` (`fastembed/common/utils.py`, duplicated in
`fastembed/embedding.py`): repeatedly slice off the next `size` elements of
the input (`islice`), stop as soon as a slice comes back empty. -/
def iter_batch (l : List α) (size : Nat) : List (List α) :=
  let b := l.take size
  if b.isEmpty then []
  else b :: iter_batch (l.drop size) size
termination_by l.length
decreasing_by
  rename_i h
  rw [List.isEmpty_iff, List.take_eq_nil_iff] at h
  push_neg at h
  have hl : 0 < l.length := List.length_pos.mpr (by tauto)
  have hsz : 0 < size := Nat.pos_of_ne_zero (by tauto)
  simp only [List.length_drop]
  omega

/-- The three runtime shapes a `documents` argument of `FlagEmbedding.embed`
can take: a single string, a materialized `list`, or some other iterable
(e.g. a generator). The `isinstance` checks in the source distinguish them. -/
inductive DocInput where
  | str (s : String)
  | lst (l : List String)
  | gen (l : List String)
deriving DecidableEq

/-- The sequence of input items a `documents` argument denotes: a single
string is wrapped into a one-element list by the source; the other shapes
denote their items directly. -/
def DocInput.resolved : DocInput → List String
  | .str s => [s]
  | .lst l => l
  | .gen l => l

/-- The `is_small` flag computed at the top of `FlagEmbedding.embed`
(`fastembed/embedding.py`): set for a single string, and for a materialized
list with fewer items than `batch_size`; other iterables never set it. -/
def is_small_flag (documents : DocInput) (batch_size : Nat) : Bool :=
  match documents with
  | .str _ => true
  | .lst l => decide (l.length < batch_size)
  | .gen _ => false

/-- Which execution path an `embed` call takes: the in-process single path, or
a `ParallelWorkerPool` with the given number of workers. -/
inductive ExecPath where
  | single
  | pool (num_workers : Nat)
deriving DecidableEq

/-- Path selection of `FlagEmbedding.embed`: a `parallel` value of `0` is
first replaced by `os.cpu_count()`; then the single-process path is taken iff
`parallel` is `None` or the `is_small` flag is set, and otherwise a pool with
`parallel` workers is used. -/
def embed_path (documents : DocInput) (batch_size : Nat) (parallel : Option Nat)
    (cpu_count : Nat) : ExecPath :=
  let parallel := if parallel = some 0 then some cpu_count else parallel
  if parallel = none ∨ is_small_flag documents batch_size then ExecPath.single
  else ExecPath.pool (parallel.getD 0)

/-- The `a_min=1e-9` clip bound used in `JinaEmbedding.mean_pooling`. -/
def pooling_eps : ℚ := 1 / 1000000000

/-- Embedding of `JinaEmbedding.mean_pooling` (`fastembed/embedding.py`): the
mask is broadcast over the hidden axis, hidden vectors are summed over the
sequence axis weighted by the mask, and divided by the mask total clipped
from below at `1e-9`. Shapes: `model_output : b × s × h`,
`attention_mask : b × s`. -/
def mean_pooling (b s h : Nat) (model_output : Fin b → Fin s → Fin h → ℚ)
    (attention_mask : Fin b → Fin s → ℚ) : Fin b → Fin h → ℚ :=
  fun i d =>
    (∑ j : Fin s, model_output i j d * attention_mask i j) /
      max (∑ j : Fin s, attention_mask i j) pooling_eps

/-- The spec's wording of mean pooling (spec §4.3): per item, the sum of the
hidden vectors at the positions whose mask value is `1`, divided by the
eps-floored mask total; padding positions contribute nothing. -/
def mean_pooling_spec (b s h : Nat) (model_output : Fin b → Fin s → Fin h → ℚ)
    (attention_mask : Fin b → Fin s → ℚ) : Fin b → Fin h → ℚ :=
  fun i d =>
    (∑ j ∈ Finset.univ.filter (fun j : Fin s => attention_mask i j = 1),
        model_output i j d) /
      max (∑ j : Fin s, attention_mask i j) pooling_eps

/-- An attention mask that is `1` on the first `k i` sequence positions of
item `i` and `0` afterward. -/
def first_k_mask (b s : Nat) (k : Fin b → Nat) : Fin b → Fin s → ℚ :=
  fun i j => if (j : Nat) < k i then 1 else 0

/-- The default `eps=1e-12` of `normalize`. -/
noncomputable def normalize_eps : ℝ := 1 / 10 ^ 12

/-- Row Euclidean norms:
`np.linalg.norm(input_array, ord=2, axis=1, keepdims=True)` on a 2-D array. -/
noncomputable def row_norm (m n : Nat) (input_array : Fin m → Fin n → ℝ) : Fin m → ℝ :=
  fun i => Real.sqrt (∑ d : Fin n, input_array i d ^ 2)

/-- Embedding of `normalize` (`fastembed/common/utils.py`, duplicated in
`fastembed/embedding.py`) on a 2-D array with `dim=1`: each row is divided by
its L2 norm, with the norm floored at `eps` to avoid division by zero. -/
noncomputable def normalize (m n : Nat) (input_array : Fin m → Fin n → ℝ) (eps : ℝ) :
    Fin m → Fin n → ℝ :=
  fun i d => input_array i d / max (row_norm m n input_array i) eps

/-- `normalize` acts row by row; this is its action on one row vector, at the
default `eps`. -/
noncomputable def normalizeV (h : Nat) (v : Fin h → ℝ) : Fin h → ℝ :=
  normalize 1 h (fun _ => v) normalize_eps 0

/-- Embedding of `adjust_matryoshka_embedding`
(`fastembed/common/utils.py`): rows of length `last_dim` stand for the last
axis (`embeddings.shape[-1] = last_dim`); leading axes are flattened into the
outer list. Truncate each row to the first `embedding_size` entries when the
requested size is smaller, zero-pad each row at the end when it is larger,
and return the array unchanged when equal. -/
def adjust_matryoshka_embedding (embeddings : List (List ℚ)) (last_dim : Nat)
    (embedding_size : Nat) : List (List ℚ) :=
  if embedding_size < last_dim then
    embeddings.map (fun row => row.take embedding_size)
  else if last_dim < embedding_size then
    embeddings.map (fun row => row ++ List.replicate (embedding_size - last_dim) 0)
  else embeddings

/-- The `RawOutput` of `EmbeddingModel.onnx_embed` on one batch: per-item
per-token hidden vectors together with the per-item per-token attention mask
(shapes `batch × seq × hid` and `batch × seq`). -/
abbrev RawOutput (hdim : Nat) := List (List (Fin hdim → ℝ)) × List (List ℚ)

/-- `embeddings[:, 0]` taken on one item: its token vector at sequence
position `0`. -/
def token0_slice (hdim : Nat) (item : List (Fin hdim → ℝ)) : Fin hdim → ℝ :=
  item.headD (fun _ => 0)

/-- Per-batch post-processing of `FlagEmbedding.embed`
(`normalize(embeddings[:, 0])`, applied row by row; the attention mask of
the raw output is discarded). -/
noncomputable def flag_postprocess (hdim : Nat) (raw : RawOutput hdim) : List (Fin hdim → ℝ) :=
  raw.1.map (fun item => normalizeV hdim (token0_slice hdim item))

/-- The single-process path of `FlagEmbedding.embed`: batch the documents with
`iter_batch`, run the model on each batch, and yield the normalized
position-0 vectors batch by batch. -/
noncomputable def flagEmbed_single (hdim : Nat) (onnx_embed : List String → RawOutput hdim)
    (documents : List String) (batch_size : Nat) : List (Fin hdim → ℝ) :=
  ((iter_batch documents batch_size).map
    (fun batch => flag_postprocess hdim (onnx_embed batch))).flatten

/-- Embedding of `EmbeddingWorker.process` (`fastembed/embedding.py`): for
each `(idx, batch)` task received, yield exactly one `(idx, raw)` result with
the same index and the model output of the task's batch. -/
def EmbeddingWorker.process (hdim : Nat) (onnx_embed : List String → RawOutput hdim)
    (items : List (Nat × List String)) : List (Nat × RawOutput hdim) :=
  items.map (fun item => (item.1, onnx_embed item.2))

/-- Modelled from the spec: `ParallelWorkerPool.ordered_map` lives in
`fastembed/parallel_processor.py`, which is not among the sources; per spec
§4.5 the pool tags each batch with an increasing sequence position, buffers
out-of-order indexed results, and yields raw outputs strictly in ascending
sequence-position order. Given the arbitrarily interleaved list of indexed
results, the reorder buffer therefore emits the result for position 0, 1, …
in order. -/
def ordered_map_output (hdim : Nat) (num_batches : Nat)
    (results : List (Nat × RawOutput hdim)) : List (RawOutput hdim) :=
  (List.range num_batches).filterMap
    (fun i => (results.find? (fun r => r.1 == i)).map (fun r => r.2))

/-- The multi-process path of `FlagEmbedding.embed`: post-process, in pool
emission order, the raw outputs delivered by `ordered_map` for the batches of
`iter_batch`. -/
noncomputable def flagEmbed_parallel (hdim : Nat) (documents : List String) (batch_size : Nat)
    (results : List (Nat × RawOutput hdim)) : List (Fin hdim → ℝ) :=
  ((ordered_map_output hdim (iter_batch documents batch_size).length results).map
    (flag_postprocess hdim)).flatten

/-- The query argument of `LateInteractionImageEmbeddingBase.query_embed`: a
single string or an iterable of strings. -/
inductive QueryInput where
  | str (s : String)
  | iter (l : List String)

/-- Iterating a Python string yields its characters, each as a one-character
string. -/
def str_chars (s : String) : List String :=
  s.data.map (fun c => String.mk [c])

/-- Embedding of `LateInteractionImageEmbeddingBase.query_embed`
(`fastembed/late_interaction/late_interaction_image_embedding_base.py`): two
independent `isinstance` checks with no `elif`; a string satisfies both (a
`str` is `Iterable`), so both branches run for a string query. `embed` is the
abstract, subclass-provided embedding function. -/
def query_embed (E : Type) (embed : List String → List E) : QueryInput → List E
  | .str s => embed [s] ++ embed (str_chars s)
  | .iter l => embed l

end Fastembed

namespace Fastembed

/-- One unfolding step of `iter_batch` on input with a non-empty next slice. -/
theorem iter_batch_cons (l : List α) (size : Nat) (hl : l ≠ []) (hs : size ≠ 0) :
    iter_batch l size = l.take size :: iter_batch (l.drop size) size := by
  rw [iter_batch]
  rw [if_neg]
  rw [List.isEmpty_iff, List.take_eq_nil_iff]
  push_neg
  tauto

/-- `iter_batch` on the empty input yields no batches. -/
theorem iter_batch_nil (size : Nat) : iter_batch ([] : List α) size = [] := by
  rw [iter_batch]
  simp

/-- Concatenating the batches reproduces the input. -/
theorem iter_batch_flatten (l : List α) (size : Nat) (hs : 0 < size) :
    (iter_batch l size).flatten = l := by
  suffices H : ∀ n, ∀ l : List α, l.length ≤ n → (iter_batch l size).flatten = l from
    H l.length l le_rfl
  intro n
  induction n with
  | zero =>
    intro l hl
    rw [List.length_eq_zero.mp (Nat.le_zero.mp hl), iter_batch_nil]
    rfl
  | succ n ih =>
    intro l hl
    rcases l with _ | ⟨a, l⟩
    · rw [iter_batch_nil]; rfl
    · have hl' : l.length ≤ n := by
        simp only [List.length_cons] at hl
        omega
      rw [iter_batch_cons _ _ (by simp) (by omega), List.flatten_cons,
        ih ((a :: l).drop size)
          (by simp only [List.length_drop, List.length_cons]; omega),
        List.take_append_drop]

/-- The number of batches is `(L + B - 1) / B`, the ceiling of `L / B`. -/
theorem iter_batch_length (l : List α) (size : Nat) (hs : 0 < size) :
    (iter_batch l size).length = (l.length + size - 1) / size := by
  suffices H : ∀ n, ∀ l : List α, l.length ≤ n →
      (iter_batch l size).length = (l.length + size - 1) / size from
    H l.length l le_rfl
  intro n
  induction n with
  | zero =>
    intro l hl
    rw [List.length_eq_zero.mp (Nat.le_zero.mp hl), iter_batch_nil]
    simp only [List.length_nil]
    rw [Nat.div_eq_of_lt (by omega)]
  | succ n ih =>
    intro l hl
    rcases l with _ | ⟨a, l⟩
    · rw [iter_batch_nil]
      simp only [List.length_nil]
      rw [Nat.div_eq_of_lt (by omega)]
    · have hl' : l.length ≤ n := by
        simp only [List.length_cons] at hl
        omega
      rw [iter_batch_cons _ _ (by simp) (by omega)]
      simp only [List.length_cons]
      rw [ih ((a :: l).drop size)
        (by simp only [List.length_drop, List.length_cons]; omega)]
      simp only [List.length_drop, List.length_cons]
      rcases Nat.lt_or_ge (l.length + 1) size with hlt | hge
      · have h0 : l.length + 1 - size = 0 := by omega
        have h1 : (0 + size - 1) / size = 0 := Nat.div_eq_of_lt (by omega)
        have h2 : (l.length + 1 + size - 1) / size = 1 := by
          rw [show l.length + 1 + size - 1 = l.length + size by omega,
            Nat.add_div_right _ hs, Nat.div_eq_of_lt (by omega)]
        rw [h0, h1, h2]
      · rw [show l.length + 1 + size - 1 = (l.length + 1 - size + size - 1) + size by omega,
          Nat.add_div_right _ hs]

/-- Every batch except possibly the last has length exactly `size`. -/
theorem iter_batch_full_lengths (l : List α) (size : Nat) (hs : 0 < size) :
    ∀ b ∈ (iter_batch l size).dropLast, b.length = size := by
  suffices H : ∀ n, ∀ l : List α, l.length ≤ n →
      ∀ b ∈ (iter_batch l size).dropLast, b.length = size from
    H l.length l le_rfl
  intro n
  induction n with
  | zero =>
    intro l hl
    rw [List.length_eq_zero.mp (Nat.le_zero.mp hl), iter_batch_nil]
    simp
  | succ n ih =>
    intro l hl
    rcases l with _ | ⟨a, l⟩
    · rw [iter_batch_nil]; simp
    · have hl' : l.length ≤ n := by
        simp only [List.length_cons] at hl
        omega
      rw [iter_batch_cons _ _ (by simp) (by omega)]
      intro b hb
      rcases h2 : iter_batch ((a :: l).drop size) size with _ | ⟨c, cs⟩
      · rw [h2] at hb
        simp at hb
      · rw [h2, List.dropLast_cons_of_ne_nil (by simp)] at hb
        rcases List.mem_cons.mp hb with rfl | hb'
        · have hne : (a :: l).drop size ≠ [] := by
            intro hcon
            rw [hcon, iter_batch_nil] at h2
            simp at h2
          have hlen : size < (a :: l).length := by
            by_contra hcon
            exact hne (List.drop_eq_nil_of_le (by omega))
          simp only [List.length_take, List.length_cons]
          simp only [List.length_cons] at hlen
          omega
        · refine ih ((a :: l).drop size)
            (by simp only [List.length_drop, List.length_cons]; omega) b ?_
          rw [h2]
          exact hb'

/-- C1: for a finite input of length `L` and a batch size `B > 0`, `iter_batch`
yields batches whose concatenation is the input, whose count is
`⌈L / B⌉ = (L + B - 1) / B` (pinned by the two inequalities
`L ≤ B⬝count < L + B`), all of full length `B` except possibly the last; and
the empty input yields zero batches. -/
theorem iter_batch_batching_complete {α : Type} (l : List α) (size : Nat) (hs : 0 < size) :
    (iter_batch l size).flatten = l ∧
    (iter_batch l size).length = (l.length + size - 1) / size ∧
    l.length ≤ size * (iter_batch l size).length ∧
    size * (iter_batch l size).length < l.length + size ∧
    (∀ b ∈ (iter_batch l size).dropLast, b.length = size) ∧
    iter_batch ([] : List α) size = [] := by
  have hq := Nat.div_add_mod (l.length + size - 1) size
  have hr := Nat.mod_lt (l.length + size - 1) hs
  refine ⟨iter_batch_flatten l size hs, iter_batch_length l size hs, ?_, ?_,
    iter_batch_full_lengths l size hs, iter_batch_nil size⟩
  · rw [iter_batch_length l size hs]
    omega
  · rw [iter_batch_length l size hs]
    omega

/-- Witness for C1 at a concrete input. -/
theorem iter_batch_batching_complete_witness :
    0 < 3 ∧
    ((iter_batch [1, 2, 3, 4, 5] 3).flatten = [1, 2, 3, 4, 5] ∧
      (iter_batch [1, 2, 3, 4, 5] 3).length = ([1, 2, 3, 4, 5].length + 3 - 1) / 3 ∧
      [1, 2, 3, 4, 5].length ≤ 3 * (iter_batch [1, 2, 3, 4, 5] 3).length ∧
      3 * (iter_batch [1, 2, 3, 4, 5] 3).length < [1, 2, 3, 4, 5].length + 3 ∧
      (∀ b ∈ (iter_batch [1, 2, 3, 4, 5] 3).dropLast, b.length = 3) ∧
      iter_batch ([] : List ℕ) 3 = []) :=
  ⟨by decide, iter_batch_batching_complete [1, 2, 3, 4, 5] 3 (by decide)⟩

/-- C3 counterexample: a single-string input with `batch_size = 1` resolves to
one item, which is not smaller than `batch_size`, yet `parallel = 0` takes the
single-process path rather than a pool with `cpu_count` workers — the source
marks every single-string call as small. -/
theorem embed_path_parallel_zero_counterexample :
    ¬ (DocInput.resolved (DocInput.str "x")).length < 1 ∧
    embed_path (DocInput.str "x") 1 (some 0) 4 = ExecPath.single ∧
    embed_path (DocInput.str "x") 1 (some 0) 4 ≠ ExecPath.pool 4 := by
  refine ⟨by decide, rfl, ?_⟩
  intro hcon
  exact ExecPath.noConfusion hcon

/-- C3 amended: `parallel = None` always selects the single-process path; when
the `is_small` fast-path flag is not set (a materialized list with at least
`batch_size` items, or a non-list iterable), `parallel = 0` is resolved to
`cpu_count` and a pool with `cpu_count` workers is used, and `parallel = N > 0`
uses a pool with `N` workers. A single-string input always sets the flag and
therefore always takes the single-process path, even when `parallel = 0`. -/
theorem embed_path_parallel_resolution (documents : DocInput) (batch_size : Nat)
    (cpu_count : Nat) (hns : is_small_flag documents batch_size = false) :
    embed_path documents batch_size none cpu_count = ExecPath.single ∧
    embed_path documents batch_size (some 0) cpu_count = ExecPath.pool cpu_count ∧
    (∀ n : Nat, 0 < n →
      embed_path documents batch_size (some n) cpu_count = ExecPath.pool n) ∧
    (∀ s : String,
      embed_path (DocInput.str s) batch_size (some 0) cpu_count = ExecPath.single) := by
  refine ⟨by simp [embed_path], by simp [embed_path, hns], ?_, ?_⟩
  · intro n hn
    simp [embed_path, hns, hn.ne']
  · intro s
    simp [embed_path, is_small_flag]

/-- Witness for C3 (amended) at a concrete input. -/
theorem embed_path_parallel_resolution_witness :
    is_small_flag (DocInput.lst ["a", "b"]) 2 = false ∧
    (embed_path (DocInput.lst ["a", "b"]) 2 none 4 = ExecPath.single ∧
      embed_path (DocInput.lst ["a", "b"]) 2 (some 0) 4 = ExecPath.pool 4 ∧
      (∀ n : Nat, 0 < n →
        embed_path (DocInput.lst ["a", "b"]) 2 (some n) 4 = ExecPath.pool n) ∧
      (∀ s : String, embed_path (DocInput.str s) 2 (some 0) 4 = ExecPath.single)) :=
  ⟨by decide, embed_path_parallel_resolution (DocInput.lst ["a", "b"]) 2 4 (by decide)⟩

/-- C4 counterexample: a generator input of one item with `batch_size = 2` has
fewer resolved items than `batch_size`, yet a requested parallel degree of 2
is honored — the pool path is taken, not the single-process path, because the
source only marks `str` and `list` inputs as small. -/
theorem embed_path_small_input_counterexample :
    (DocInput.resolved (DocInput.gen ["a"])).length < 2 ∧
    embed_path (DocInput.gen ["a"]) 2 (some 2) 4 = ExecPath.pool 2 ∧
    embed_path (DocInput.gen ["a"]) 2 (some 2) 4 ≠ ExecPath.single := by
  refine ⟨by decide, rfl, ?_⟩
  intro hcon
  exact ExecPath.noConfusion hcon

/-- C4 amended: the small-input fast path applies exactly to the inputs whose
`is_small` flag is set — a single string always, and a materialized list with
fewer items than `batch_size`; for those the single-process path is used and
any requested parallel degree (including `0`) is silently ignored. A
non-materialized iterable is never treated as small. -/
theorem embed_path_small_input_fast_path (batch_size : Nat) (parallel : Option Nat)
    (cpu_count : Nat) :
    (∀ s : String,
      embed_path (DocInput.str s) batch_size parallel cpu_count = ExecPath.single) ∧
    (∀ l : List String, l.length < batch_size →
      embed_path (DocInput.lst l) batch_size parallel cpu_count = ExecPath.single) := by
  constructor
  · intro s
    simp [embed_path, is_small_flag]
  · intro l hl
    simp [embed_path, is_small_flag, hl]

/-- C5: with a 0/1 attention mask, `mean_pooling` returns per item the sum of
the hidden vectors over the positions whose mask value is 1 (padding
positions contribute nothing), divided by the mask total floored at the
positive `1e-9` bound; the divisor is always strictly positive, so the
degenerate all-zero mask causes no division by zero. -/
theorem mean_pooling_matches_spec (b s h : Nat)
    (model_output : Fin b → Fin s → Fin h → ℚ)
    (attention_mask : Fin b → Fin s → ℚ)
    (hmask : ∀ i j, attention_mask i j = 0 ∨ attention_mask i j = 1) :
    mean_pooling b s h model_output attention_mask
      = mean_pooling_spec b s h model_output attention_mask ∧
    ∀ i : Fin b, 0 < max (∑ j : Fin s, attention_mask i j) pooling_eps := by
  constructor
  · funext i d
    simp only [mean_pooling, mean_pooling_spec]
    congr 1
    rw [Finset.sum_filter]
    refine Finset.sum_congr rfl ?_
    intro j _
    rcases hmask i j with h0 | h1
    · rw [h0]; simp
    · rw [h1]; simp
  · intro i
    exact lt_of_lt_of_le (by norm_num [pooling_eps]) (le_max_right _ _)

/-- Witness for C5 at a concrete input. -/
theorem mean_pooling_matches_spec_witness :
    (∀ (i : Fin 1) (j : Fin 2),
      (fun (_ : Fin 1) (j : Fin 2) => if (j : Nat) = 0 then (1 : ℚ) else 0) i j = 0 ∨
      (fun (_ : Fin 1) (j : Fin 2) => if (j : Nat) = 0 then (1 : ℚ) else 0) i j = 1) ∧
    (mean_pooling 1 2 1 (fun _ _ _ => (3 : ℚ))
        (fun (_ : Fin 1) (j : Fin 2) => if (j : Nat) = 0 then (1 : ℚ) else 0)
      = mean_pooling_spec 1 2 1 (fun _ _ _ => (3 : ℚ))
        (fun (_ : Fin 1) (j : Fin 2) => if (j : Nat) = 0 then (1 : ℚ) else 0) ∧
    ∀ i : Fin 1,
      0 < max (∑ j : Fin 2,
        (fun (_ : Fin 1) (j : Fin 2) => if (j : Nat) = 0 then (1 : ℚ) else 0) i j)
        pooling_eps) :=
  ⟨by decide, mean_pooling_matches_spec 1 2 1 _ _ (by decide)⟩

/-- C6: under a mask that is 1 on the first `k i` positions of item `i` and 0
afterward, mean pooling depends only on the first `k i` hidden vectors: any
two model outputs agreeing on the unmasked positions pool identically. -/
theorem mean_pooling_mask_noninterference (b s h : Nat) (k : Fin b → Nat)
    (out1 out2 : Fin b → Fin s → Fin h → ℚ)
    (hagree : ∀ (i : Fin b) (j : Fin s) (d : Fin h), j.val < k i → out1 i j d = out2 i j d) :
    mean_pooling b s h out1 (first_k_mask b s k)
      = mean_pooling b s h out2 (first_k_mask b s k) := by
  funext i d
  simp only [mean_pooling]
  congr 1
  refine Finset.sum_congr rfl ?_
  intro j _
  by_cases hj : (j : Nat) < k i
  · rw [hagree i j d hj]
  · simp [first_k_mask, hj]

/-- Witness for C6 at a concrete input: the two outputs differ at the masked
position 1 yet pool to the same vector. -/
theorem mean_pooling_mask_noninterference_witness :
    (∀ (i : Fin 1) (j : Fin 2) (d : Fin 1), j.val < 1 →
      (fun (_ : Fin 1) (j : Fin 2) (_ : Fin 1) => if (j : Nat) = 0 then (5 : ℚ) else 7) i j d =
      (fun (_ : Fin 1) (j : Fin 2) (_ : Fin 1) => if (j : Nat) = 0 then (5 : ℚ) else 9) i j d) ∧
    mean_pooling 1 2 1
        (fun (_ : Fin 1) (j : Fin 2) (_ : Fin 1) => if (j : Nat) = 0 then (5 : ℚ) else 7)
        (first_k_mask 1 2 (fun _ => 1))
      = mean_pooling 1 2 1
        (fun (_ : Fin 1) (j : Fin 2) (_ : Fin 1) => if (j : Nat) = 0 then (5 : ℚ) else 9)
        (first_k_mask 1 2 (fun _ => 1)) :=
  ⟨by decide, mean_pooling_mask_noninterference 1 2 1 (fun _ => 1) _ _ (by decide)⟩

/-- C7: at the default `eps = 1e-12`, for any row whose Euclidean norm is at
least `eps`, normalizing yields a unit-norm row and normalizing again returns
the already-normalized row unchanged; and for every input the divisor is at
least `eps > 0`, so no division by zero occurs even on a near-zero row. -/
theorem normalize_idempotent_unit_norm (m n : Nat) (a : Fin m → Fin n → ℝ) (i : Fin m)
    (hnorm : normalize_eps ≤ row_norm m n a i) :
    row_norm m n (normalize m n a normalize_eps) i = 1 ∧
    (∀ d, normalize m n (normalize m n a normalize_eps) normalize_eps i d
      = normalize m n a normalize_eps i d) ∧
    (∀ (c : Fin m → Fin n → ℝ) (t : Fin m), 0 < max (row_norm m n c t) normalize_eps) := by
  have hrow_def : ∀ (g : Fin m → Fin n → ℝ) (t : Fin m),
      row_norm m n g t = Real.sqrt (∑ d : Fin n, g t d ^ 2) := fun g t => rfl
  have hnorm_def : ∀ (g : Fin m → Fin n → ℝ) (e : ℝ) (t : Fin m) (d : Fin n),
      normalize m n g e t d = g t d / max (row_norm m n g t) e := fun g e t d => rfl
  have heps : (0 : ℝ) < normalize_eps := by norm_num [normalize_eps]
  have hN : 0 < row_norm m n a i := lt_of_lt_of_le heps hnorm
  have hmax : max (row_norm m n a i) normalize_eps = row_norm m n a i := max_eq_left hnorm
  have hS : (0 : ℝ) ≤ ∑ d : Fin n, a i d ^ 2 :=
    Finset.sum_nonneg fun d _ => sq_nonneg _
  have hSpos : (0 : ℝ) < ∑ d : Fin n, a i d ^ 2 := by
    rcases eq_or_lt_of_le hS with hz | hpos
    · exfalso
      have h0 : row_norm m n a i = 0 := by
        rw [hrow_def, ← hz, Real.sqrt_zero]
      exact absurd h0 (ne_of_gt hN)
    · exact hpos
  have hrow1 : row_norm m n (normalize m n a normalize_eps) i = 1 := by
    rw [hrow_def]
    have hterm : ∀ d : Fin n, normalize m n a normalize_eps i d ^ 2
        = a i d ^ 2 / (∑ e : Fin n, a i e ^ 2) := by
      intro d
      rw [hnorm_def, hmax, div_pow]
      congr 1
      rw [hrow_def, Real.sq_sqrt hS]
    rw [Finset.sum_congr rfl fun d _ => hterm d, ← Finset.sum_div,
      div_self (ne_of_gt hSpos), Real.sqrt_one]
  refine ⟨hrow1, ?_, ?_⟩
  · intro d
    have hstep : normalize m n (normalize m n a normalize_eps) normalize_eps i d
        = normalize m n a normalize_eps i d /
          max (row_norm m n (normalize m n a normalize_eps) i) normalize_eps := rfl
    rw [hstep, hrow1, max_eq_left (by norm_num [normalize_eps]), div_one]
  · intro c t
    exact lt_of_lt_of_le heps (le_max_right _ _)

/-- Witness for C7 at the concrete row `(3, 4)`, of norm `5`. -/
theorem normalize_idempotent_unit_norm_witness :
    normalize_eps ≤ row_norm 1 2 (fun _ j => if (j : Nat) = 0 then (3 : ℝ) else 4) 0 ∧
    (row_norm 1 2 (normalize 1 2 (fun _ j => if (j : Nat) = 0 then (3 : ℝ) else 4)
        normalize_eps) 0 = 1 ∧
    (∀ d, normalize 1 2 (normalize 1 2 (fun _ j => if (j : Nat) = 0 then (3 : ℝ) else 4)
        normalize_eps) normalize_eps 0 d
      = normalize 1 2 (fun _ j => if (j : Nat) = 0 then (3 : ℝ) else 4) normalize_eps 0 d) ∧
    (∀ (c : Fin 1 → Fin 2 → ℝ) (t : Fin 1), 0 < max (row_norm 1 2 c t) normalize_eps)) := by
  have hle : normalize_eps ≤ row_norm 1 2 (fun _ j => if (j : Nat) = 0 then (3 : ℝ) else 4) 0 := by
    have hsum : (∑ d : Fin 2, (fun (_ : Fin 1) (j : Fin 2) =>
        if (j : Nat) = 0 then (3 : ℝ) else 4) 0 d ^ 2) = 25 := by
      rw [Fin.sum_univ_two]
      norm_num
    have h5 : row_norm 1 2 (fun _ j => if (j : Nat) = 0 then (3 : ℝ) else 4) 0 = 5 := by
      rw [show row_norm 1 2 (fun _ j => if (j : Nat) = 0 then (3 : ℝ) else 4) 0
        = Real.sqrt (∑ d : Fin 2, (fun (_ : Fin 1) (j : Fin 2) =>
          if (j : Nat) = 0 then (3 : ℝ) else 4) 0 d ^ 2) from rfl, hsum,
        show (25 : ℝ) = 5 ^ 2 by norm_num, Real.sqrt_sq (by norm_num)]
    rw [h5]
    norm_num [normalize_eps]
  exact ⟨hle, normalize_idempotent_unit_norm 1 2 _ 0 hle⟩

/-- C8: on a rectangular array whose last axis has `last_dim` entries,
Matryoshka adjustment keeps the outer shape, gives every row exactly
`embedding_size` entries, and pointwise keeps the first `min last_dim
embedding_size` components of each vector and fills the rest (if any) with
zeros: truncation when the requested size is smaller, zero padding when
larger, and the identical array when equal. -/
theorem adjust_matryoshka_embedding_spec (embeddings : List (List ℚ))
    (last_dim embedding_size : Nat)
    (hrect : ∀ row ∈ embeddings, row.length = last_dim) :
    (adjust_matryoshka_embedding embeddings last_dim embedding_size).length
      = embeddings.length ∧
    (∀ row ∈ adjust_matryoshka_embedding embeddings last_dim embedding_size,
      row.length = embedding_size) ∧
    (∀ k d : Nat, d < embedding_size →
      ((adjust_matryoshka_embedding embeddings last_dim embedding_size).getD k []).getD d 0
        = if d < last_dim then (embeddings.getD k []).getD d 0 else 0) ∧
    (embedding_size = last_dim →
      adjust_matryoshka_embedding embeddings last_dim embedding_size = embeddings) := by
  rcases Nat.lt_trichotomy embedding_size last_dim with hlt | heq | hgt
  · have hdef : adjust_matryoshka_embedding embeddings last_dim embedding_size
        = embeddings.map (fun row => row.take embedding_size) := by
      simp only [adjust_matryoshka_embedding, if_pos hlt]
    refine ⟨by rw [hdef, List.length_map], ?_, ?_, by omega⟩
    · intro row hrow
      rw [hdef] at hrow
      obtain ⟨r, hr, rfl⟩ := List.mem_map.mp hrow
      rw [List.length_take, hrect r hr]
      omega
    · intro k d hd
      rw [hdef]
      by_cases hk : k < embeddings.length
      · have hrowk : (embeddings.map (fun row => row.take embedding_size)).getD k []
            = (embeddings.getD k []).take embedding_size := by
          rw [List.getD_eq_getElem?_getD, List.getElem?_map,
            List.getElem?_eq_getElem hk, List.getD_eq_getElem?_getD,
            List.getElem?_eq_getElem hk]
          rfl
        rw [hrowk, List.getD_eq_getElem?_getD, List.getElem?_take, if_pos hd,
          ← List.getD_eq_getElem?_getD, if_pos (by omega)]
      · have hnone : embeddings[k]? = none := List.getElem?_eq_none (by omega)
        simp [List.getD_eq_getElem?_getD, List.getElem?_map, hnone]
  · have hdef : adjust_matryoshka_embedding embeddings last_dim embedding_size
        = embeddings := by
      simp only [adjust_matryoshka_embedding,
        if_neg (by omega : ¬ embedding_size < last_dim),
        if_neg (by omega : ¬ last_dim < embedding_size)]
    refine ⟨by rw [hdef], ?_, ?_, fun _ => hdef⟩
    · intro row hrow
      rw [hdef] at hrow
      rw [hrect row hrow]
      omega
    · intro k d hd
      rw [hdef, if_pos (by omega)]
  · have hdef : adjust_matryoshka_embedding embeddings last_dim embedding_size
        = embeddings.map
          (fun row => row ++ List.replicate (embedding_size - last_dim) 0) := by
      simp only [adjust_matryoshka_embedding,
        if_neg (by omega : ¬ embedding_size < last_dim), if_pos hgt]
    refine ⟨by rw [hdef, List.length_map], ?_, ?_, by omega⟩
    · intro row hrow
      rw [hdef] at hrow
      obtain ⟨r, hr, rfl⟩ := List.mem_map.mp hrow
      rw [List.length_append, List.length_replicate, hrect r hr]
      omega
    · intro k d hd
      rw [hdef]
      by_cases hk : k < embeddings.length
      · have hlenr : (embeddings.getD k []).length = last_dim := by
          rw [List.getD_eq_getElem?_getD, List.getElem?_eq_getElem hk]
          exact hrect _ (List.getElem_mem hk)
        have hrowk : (embeddings.map
              (fun row => row ++ List.replicate (embedding_size - last_dim) 0)).getD k []
            = embeddings.getD k [] ++ List.replicate (embedding_size - last_dim) 0 := by
          rw [List.getD_eq_getElem?_getD, List.getElem?_map,
            List.getElem?_eq_getElem hk, List.getD_eq_getElem?_getD,
            List.getElem?_eq_getElem hk]
          rfl
        rw [hrowk, List.getD_eq_getElem?_getD, List.getElem?_append, hlenr]
        by_cases hdD : d < last_dim
        · rw [if_pos hdD, if_pos hdD, ← List.getD_eq_getElem?_getD]
        · rw [if_neg hdD, if_neg hdD, List.getElem?_replicate, if_pos (by omega)]
          rfl
      · have hnone : embeddings[k]? = none := List.getElem?_eq_none (by omega)
        simp [List.getD_eq_getElem?_getD, List.getElem?_map, hnone]

/-- Witness for C8 at a concrete input (a 3-vector padded to size 5). -/
theorem adjust_matryoshka_embedding_spec_witness :
    (∀ row ∈ [[(1 : ℚ), 2, 3]], row.length = 3) ∧
    ((adjust_matryoshka_embedding [[(1 : ℚ), 2, 3]] 3 5).length = 1 ∧
    (∀ row ∈ adjust_matryoshka_embedding [[(1 : ℚ), 2, 3]] 3 5, row.length = 5) ∧
    (∀ k d : Nat, d < 5 →
      ((adjust_matryoshka_embedding [[(1 : ℚ), 2, 3]] 3 5).getD k []).getD d 0
        = if d < 3 then (([[(1 : ℚ), 2, 3]] : List (List ℚ)).getD k []).getD d 0 else 0) ∧
    (5 = 3 → adjust_matryoshka_embedding [[(1 : ℚ), 2, 3]] 3 5 = [[(1 : ℚ), 2, 3]])) :=
  ⟨by decide, adjust_matryoshka_embedding_spec [[(1 : ℚ), 2, 3]] 3 5 (by decide)⟩

/-- Normalizing the zero vector (the `headD` default of an empty token list)
yields the zero vector: the eps floor prevents `0/0`. -/
theorem normalizeV_token0_nil (hdim : Nat) :
    normalizeV hdim (token0_slice hdim []) = (fun _ => (0 : ℝ)) := by
  funext d
  have hstep : normalizeV hdim (token0_slice hdim []) d
      = token0_slice hdim [] d /
        max (row_norm 1 hdim (fun _ => token0_slice hdim []) 0) normalize_eps := rfl
  rw [hstep]
  exact zero_div _

/-- C9: under first-token pooling the single-process `FlagEmbedding.embed`
path yields exactly one vector per input document, and the `k`-th output
vector is the L2-normalized position-0 token slice of the `k`-th item's raw
per-token output (items aligned across batch boundaries in input order). -/
theorem flagEmbed_single_first_token (hdim : Nat)
    (onnx_embed : List String → RawOutput hdim)
    (documents : List String) (batch_size : Nat) (hB : 0 < batch_size)
    (hlen : ∀ b : List String, (onnx_embed b).1.length = b.length) :
    (flagEmbed_single hdim onnx_embed documents batch_size).length = documents.length ∧
    ∀ k : Nat,
      (flagEmbed_single hdim onnx_embed documents batch_size).getD k (fun _ => 0)
        = normalizeV hdim (token0_slice hdim
            ((((iter_batch documents batch_size).map
              (fun batch => (onnx_embed batch).1)).flatten).getD k [])) := by
  have hkey : flagEmbed_single hdim onnx_embed documents batch_size
      = (((iter_batch documents batch_size).map
          (fun batch => (onnx_embed batch).1)).flatten).map
          (fun item => normalizeV hdim (token0_slice hdim item)) := by
    rw [List.map_flatten, List.map_map]
    rfl
  constructor
  · rw [hkey, List.length_map, List.length_flatten, List.map_map]
    have hlens : (iter_batch documents batch_size).map
          (List.length ∘ fun batch => (onnx_embed batch).1)
        = (iter_batch documents batch_size).map List.length := by
      refine List.map_congr_left ?_
      intro b _
      exact hlen b
    rw [hlens, ← List.length_flatten, iter_batch_flatten documents batch_size hB]
  · intro k
    rw [hkey]
    by_cases hk : k < (((iter_batch documents batch_size).map
        (fun batch => (onnx_embed batch).1)).flatten).length
    · rw [List.getD_eq_getElem?_getD, List.getElem?_map, List.getElem?_eq_getElem hk,
        List.getD_eq_getElem?_getD, List.getElem?_eq_getElem hk]
      rfl
    · have hnone : (((iter_batch documents batch_size).map
          (fun batch => (onnx_embed batch).1)).flatten)[k]? = none :=
        List.getElem?_eq_none (by omega)
      rw [List.getD_eq_getElem?_getD, List.getElem?_map, hnone,
        List.getD_eq_getElem?_getD, hnone]
      exact (normalizeV_token0_nil hdim).symm

/-- Witness for C9 at a concrete input. -/
theorem flagEmbed_single_first_token_witness :
    0 < 1 ∧
    (∀ b : List String,
      ((fun (b : List String) =>
        ((b.map fun _ => [fun (_ : Fin 1) => (1 : ℝ)], b.map fun _ => [(1 : ℚ)]) :
          RawOutput 1)) b).1.length = b.length) ∧
    ((flagEmbed_single 1 (fun b =>
        (b.map fun _ => [fun (_ : Fin 1) => (1 : ℝ)], b.map fun _ => [(1 : ℚ)]))
        ["a"] 1).length = (["a"] : List String).length ∧
    ∀ k : Nat,
      (flagEmbed_single 1 (fun b =>
          (b.map fun _ => [fun (_ : Fin 1) => (1 : ℝ)], b.map fun _ => [(1 : ℚ)]))
          ["a"] 1).getD k (fun _ => 0)
        = normalizeV 1 (token0_slice 1
            ((((iter_batch ["a"] 1).map
              (fun batch => ((fun (b : List String) =>
                ((b.map fun _ => [fun (_ : Fin 1) => (1 : ℝ)], b.map fun _ => [(1 : ℚ)]) :
                  RawOutput 1)) batch).1)).flatten).getD k []))) :=
  ⟨by decide, fun b => by simp,
    flagEmbed_single_first_token 1 _ ["a"] 1 (by decide) (fun b => by simp)⟩

/-- C2: the multi-process path equals the single-process path. `queues` is an
arbitrary distribution of the position-tagged batches among the workers
(`queues.flatten` a permutation of the enumerated batches), each worker maps
its queue through `EmbeddingWorker.process`, and `results` is an arbitrary
interleaving (permutation) of the workers' outputs. Reordered by ascending
sequence position and post-processed, the pool output is item-for-item the
sequential single-process output. -/
theorem flagEmbed_parallel_eq_single (hdim : Nat)
    (onnx_embed : List String → RawOutput hdim)
    (documents : List String) (batch_size : Nat)
    (queues : List (List (Nat × List String)))
    (results : List (Nat × RawOutput hdim))
    (hq : queues.flatten.Perm (iter_batch documents batch_size).enum)
    (hr : results.Perm ((queues.map (EmbeddingWorker.process hdim onnx_embed)).flatten)) :
    flagEmbed_parallel hdim documents batch_size results
      = flagEmbed_single hdim onnx_embed documents batch_size := by
  have hproc : (queues.map (EmbeddingWorker.process hdim onnx_embed)).flatten
      = queues.flatten.map (fun t : Nat × List String => (t.1, onnx_embed t.2)) := by
    rw [List.map_flatten]
    rfl
  have hperm : results.Perm ((iter_batch documents batch_size).enum.map
      (fun t : Nat × List String => (t.1, onnx_embed t.2))) := by
    rw [hproc] at hr
    exact hr.trans (hq.map _)
  have hfind : ∀ i : Nat, i < (iter_batch documents batch_size).length →
      results.find? (fun r => r.1 == i)
        = some (i, onnx_embed ((iter_batch documents batch_size).getD i [])) := by
    intro i hi
    have hmemenum : ((i, (iter_batch documents batch_size).getD i []) :
        Nat × List String) ∈ (iter_batch documents batch_size).enum := by
      rw [List.mem_enum_iff_getElem?]
      rw [List.getElem?_eq_getElem hi, List.getD_eq_getElem?_getD,
        List.getElem?_eq_getElem hi]
      rfl
    have hmem : ((i, onnx_embed ((iter_batch documents batch_size).getD i [])) :
        Nat × RawOutput hdim) ∈ results := by
      rw [hperm.mem_iff]
      exact List.mem_map.mpr ⟨(i, (iter_batch documents batch_size).getD i []), hmemenum, rfl⟩
    have hsome : (results.find? (fun r => r.1 == i)).isSome := by
      rw [List.find?_isSome]
      exact ⟨_, hmem, by simp⟩
    obtain ⟨x, hx⟩ := Option.isSome_iff_exists.mp hsome
    have hpx : (x.1 == i) = true := @List.find?_some _ (fun r => r.1 == i) x results hx
    have hxmem : x ∈ results := List.mem_of_find?_eq_some hx
    have hxmem2 : x ∈ (iter_batch documents batch_size).enum.map
        (fun t : Nat × List String => (t.1, onnx_embed t.2)) := hperm.mem_iff.mp hxmem
    obtain ⟨t, htmem, htx⟩ := List.mem_map.mp hxmem2
    rw [List.mem_enum_iff_getElem?] at htmem
    have hti : t.1 = i := by
      have hxi : x.1 = i := by simpa using hpx
      rw [← htx] at hxi
      exact hxi
    have ht2 : t.2 = (iter_batch documents batch_size).getD i [] := by
      rw [List.getD_eq_getElem?_getD, ← hti, htmem]
      rfl
    rw [hx, ← htx]
    show some (t.1, onnx_embed t.2) = _
    rw [hti, ht2]
  have hout : ordered_map_output hdim (iter_batch documents batch_size).length results
      = (iter_batch documents batch_size).map onnx_embed := by
    have hcongr : (List.range (iter_batch documents batch_size).length).filterMap
          (fun i => (results.find? (fun r => r.1 == i)).map (fun r => r.2))
        = (List.range (iter_batch documents batch_size).length).filterMap
          (fun i => some (onnx_embed ((iter_batch documents batch_size).getD i []))) := by
      refine List.filterMap_congr ?_
      intro i hi
      rw [List.mem_range] at hi
      rw [hfind i hi]
      rfl
    have hmapform : (List.range (iter_batch documents batch_size).length).filterMap
          (fun i => some (onnx_embed ((iter_batch documents batch_size).getD i [])))
        = (List.range (iter_batch documents batch_size).length).map
          (fun i => onnx_embed ((iter_batch documents batch_size).getD i [])) :=
      congrFun (List.filterMap_eq_map _) _
    have hrange : (List.range (iter_batch documents batch_size).length).map
          (fun i => onnx_embed ((iter_batch documents batch_size).getD i []))
        = (iter_batch documents batch_size).map onnx_embed := by
      refine List.ext_getElem ?_ ?_
      · rw [List.length_map, List.length_range, List.length_map]
      · intro k h1 h2
        rw [List.getElem_map, List.getElem_map, List.getElem_range]
        congr 1
        have hk : k < (iter_batch documents batch_size).length := by
          rw [List.length_map, List.length_range] at h1
          exact h1
        rw [List.getD_eq_getElem?_getD, List.getElem?_eq_getElem hk]
        rfl
    calc ordered_map_output hdim (iter_batch documents batch_size).length results
        = (List.range (iter_batch documents batch_size).length).filterMap
            (fun i => (results.find? (fun r => r.1 == i)).map (fun r => r.2)) := rfl
      _ = (List.range (iter_batch documents batch_size).length).map
            (fun i => onnx_embed ((iter_batch documents batch_size).getD i [])) := by
          rw [hcongr, hmapform]
      _ = (iter_batch documents batch_size).map onnx_embed := hrange
  have hpar : flagEmbed_parallel hdim documents batch_size results
      = ((ordered_map_output hdim (iter_batch documents batch_size).length results).map
          (flag_postprocess hdim)).flatten := rfl
  rw [hpar, hout, List.map_map]
  rfl

/-- Witness for C2 at a concrete input: a single batch dispatched to one
worker, delivered without reordering. -/
theorem flagEmbed_parallel_eq_single_witness :
    ([[(0, ["a"])]] : List (List (Nat × List String))).flatten.Perm
        (iter_batch ["a"] 1).enum ∧
    ([(0, ((["a"].map fun _ => [fun (_ : Fin 1) => (1 : ℝ)],
          ["a"].map fun _ => [(1 : ℚ)]) : RawOutput 1))]).Perm
        (([[(0, ["a"])]] : List (List (Nat × List String))).map
          (EmbeddingWorker.process 1 (fun b =>
            (b.map fun _ => [fun (_ : Fin 1) => (1 : ℝ)],
              b.map fun _ => [(1 : ℚ)])))).flatten ∧
    flagEmbed_parallel 1 ["a"] 1
        [(0, ((["a"].map fun _ => [fun (_ : Fin 1) => (1 : ℝ)],
          ["a"].map fun _ => [(1 : ℚ)]) : RawOutput 1))]
      = flagEmbed_single 1 (fun b =>
          (b.map fun _ => [fun (_ : Fin 1) => (1 : ℝ)], b.map fun _ => [(1 : ℚ)]))
          ["a"] 1 := by
  have hbatch : iter_batch ["a"] 1 = [["a"]] := by
    rw [iter_batch_cons _ _ (by simp) (by omega)]
    simp [iter_batch_nil]
  have h1 : ([[(0, ["a"])]] : List (List (Nat × List String))).flatten.Perm
      (iter_batch ["a"] 1).enum := by
    rw [hbatch]
    exact List.Perm.refl _
  have h2 : ([(0, ((["a"].map fun _ => [fun (_ : Fin 1) => (1 : ℝ)],
        ["a"].map fun _ => [(1 : ℚ)]) : RawOutput 1))]).Perm
      (([[(0, ["a"])]] : List (List (Nat × List String))).map
        (EmbeddingWorker.process 1 (fun b =>
          (b.map fun _ => [fun (_ : Fin 1) => (1 : ℝ)],
            b.map fun _ => [(1 : ℚ)])))).flatten :=
    List.Perm.refl _
  exact ⟨h1, h2, flagEmbed_parallel_eq_single 1 _ ["a"] 1 _ _ h1 h2⟩

/-- C10 counterexample: for the empty string query and an embed yielding one
embedding per input item, `query_embed` yields exactly one embedding — the
`Iterable` branch iterates zero characters — not more than one. -/
theorem query_embed_empty_string_counterexample :
    (∀ l : List String, ((fun l : List String => l) l).length = l.length) ∧
    (query_embed String (fun l => l) (QueryInput.str "")).length = 1 ∧
    ¬ 1 < (query_embed String (fun l => l) (QueryInput.str "")).length := by
  refine ⟨fun l => rfl, rfl, ?_⟩
  intro hcon
  exact absurd rfl (Nat.ne_of_lt hcon)

/-- C10 amended: `query_embed` on a string query runs both `isinstance`
branches: its output is the embeddings of the one-element list `[query]`
followed by the embeddings of the query's individual characters; with an
embed yielding one embedding per input item this gives `1 + length(query)`
embeddings — more than one exactly when the query is nonempty, and exactly
one for the empty string. -/
theorem query_embed_string_both_branches (E : Type) (embed : List String → List E)
    (hlen : ∀ l, (embed l).length = l.length) (s : String) :
    query_embed E embed (QueryInput.str s) = embed [s] ++ embed (str_chars s) ∧
    (query_embed E embed (QueryInput.str s)).length = 1 + s.length ∧
    (s ≠ "" → 1 < (query_embed E embed (QueryInput.str s)).length) := by
  have hlen2 : (query_embed E embed (QueryInput.str s)).length = 1 + s.length := by
    show (embed [s] ++ embed (str_chars s)).length = 1 + s.length
    rw [List.length_append, hlen, hlen]
    show 1 + (str_chars s).length = 1 + s.length
    rw [str_chars, List.length_map]
    rfl
  refine ⟨rfl, hlen2, ?_⟩
  intro hs
  have hd : s.data ≠ [] := by
    intro hnil
    exact hs (String.ext (by rw [hnil]))
  have hpos : 0 < s.data.length := List.length_pos.mpr hd
  rw [hlen2]
  have hsl : s.length = s.data.length := rfl
  omega

/-- Witness for C10 (amended) at a concrete nonempty query. -/
theorem query_embed_string_both_branches_witness :
    (∀ l : List String, ((fun l : List String => l) l).length = l.length) ∧
    ("ab" : String) ≠ "" ∧
    (query_embed String (fun l => l) (QueryInput.str "ab")
        = (fun l : List String => l) ["ab"]
          ++ (fun l : List String => l) (str_chars "ab") ∧
      (query_embed String (fun l => l) (QueryInput.str "ab")).length
        = 1 + ("ab" : String).length ∧
      (("ab" : String) ≠ "" →
        1 < (query_embed String (fun l => l) (QueryInput.str "ab")).length)) :=
  ⟨fun l => rfl, by decide,
    query_embed_string_both_branches String (fun l => l) (fun l => rfl) "ab"⟩

/-- Witness for C4 (amended) at a concrete input. -/
theorem embed_path_small_input_fast_path_witness :
    (["x"] : List String).length < 2 ∧
    embed_path (DocInput.str "a") 2 (some 3) 4 = ExecPath.single ∧
    embed_path (DocInput.lst ["x"]) 2 (some 3) 4 = ExecPath.single :=
  ⟨by decide, (embed_path_small_input_fast_path 2 (some 3) 4).1 "a",
    (embed_path_small_input_fast_path 2 (some 3) 4).2 ["x"] (by decide)⟩

end Fastembed
